import Mathlib

/-!
Shallow embedding of the FileExample virtual-filesystem tree
(src/src/main.cpp and the two revisions in src/unnamed/part_000).

The tree is a closed variant `std::variant<Drive, File, Directory>`:
  * `Drive`   : a drive letter (char) plus an owned ordered list of children
                (`ContainerFileItem`); its name is the one-character letter.
  * `Directory`: a stored string name (`NamedFileItem`) plus children.
  * `File`    : a stored string name only, no children.

Operations embedded below, each from the source line given in its comment:
  * `ContainerGet`      — `ContainerFileItem::Get` (main.cpp line 42):
                          bounds-checked indexed child access, throws
                          `NonExist` when `idx < 0 || idx >= size`.
  * `FileItem.Get`      — `FileItem::operator[](int)` dispatch
                          (main.cpp lines 116-140): containers delegate to
                          `ContainerFileItem::Get`, `File` throws `NonExist`.
  * `FileItem.GetPath`  — `FileItem::operator[](const Path&)`
                          (main.cpp lines 141-151): folds indexed access
                          over the path, an exception propagates (models as
                          `Except` short-circuit).
  * `FileItem.GetName`  — `Drive::GetName` (one-char view of the letter,
                          main.cpp line 55) and `NamedFileItem::GetName`
                          (part_000 line 22).
  * `FileItem.Rename`   — `FileItem::Rename` (part_000 lines 113-136):
                          `SetName` when the case derives `NamedFileItem`,
                          else throws `CannotRename`.  Modelled functionally:
                          the `ok` value is the node after the in-place
                          mutation.
  * `FileItem.Recurse`  — `FileItem::Recurse` (main.cpp lines 78-131):
                          pre-order visit; the model returns the list of
                          `(node, path)` visitor invocations in call order.
  * `ContainerGetNumItems` — `ContainerFileItem::GetNumItems`
                          (part_000 line 261, second revision); its unused
                          `int idx` parameter is kept.
  * `ContainerRemove`   — `ContainerFileItem::Remove` (part_000 line 267,
                          second revision): `m_contents.erase(begin()+idx)`.
                          The source does no bounds check (out-of-range is
                          UB), so the model is meaningful only for
                          `0 ≤ idx < size`, the range the theorem assumes.

Exceptions become `Except Err`; `int` indices become `Int` (so negative
indices are representable, as claim C2 requires); `std::vector<FileItem>`
becomes `List FileItem`; `std::string`/`string_view` become `String`.
-/

namespace FileExample

/-- The two exception types of the source: `NonExist` (part_000 line 9)
and `CannotRename` (part_000 line 10). -/
inductive Err where
  | nonExist
  | cannotRename
deriving DecidableEq, Repr

/-- The closed variant `std::variant<Drive, File, Directory>` wrapped by
`class FileItem` (main.cpp line 7 and 75).  Each constructor carries the
fields of its C++ class: `Drive` the `char m_drive_letter` and the
`ContainerFileItem` contents, `Directory` the `NamedFileItem` name and the
contents, `File` the name only. -/
inductive FileItem where
  | drive (m_drive_letter : Char) (m_contents : List FileItem)
  | directory (m_name : String) (m_contents : List FileItem)
  | file (m_name : String)
deriving Repr

instance : Inhabited FileItem := ⟨.file ""⟩

/-- A `Path` is `std::vector<int>` (main.cpp line 8): child-selection
indices, signed as in the source. -/
abbrev Path := List Int

/-- Which case of the variant a node holds. -/
inductive FileItemKind where
  | drive
  | directory
  | file
deriving DecidableEq, Repr

def FileItem.kind : FileItem → FileItemKind
  | .drive _ _ => .drive
  | .directory _ _ => .directory
  | .file _ => .file

/-- The `ContainerFileItem` base's child list; `File` has no such base, so
the accessor returns `[]` for it (only container cases ever reach it in the
theorems, guarded by `isContainer`). -/
def FileItem.m_contents : FileItem → List FileItem
  | .drive _ cs => cs
  | .directory _ cs => cs
  | .file _ => []

/-- `std::is_base_of_v<ContainerFileItem, FileItemType>`: true exactly for
`Drive` and `Directory` (main.cpp lines 45, 60). -/
def FileItem.isContainer : FileItem → Bool
  | .drive _ _ => true
  | .directory _ _ => true
  | .file _ => false

/-- `std::is_base_of_v<NamedFileItem, FileItemType>` in the first revision of
part_000: true exactly for `Directory` and `File` (part_000 lines 61, 69);
`Drive` does not derive `NamedFileItem` there. -/
def FileItem.isNamed : FileItem → Bool
  | .drive _ _ => false
  | .directory _ _ => true
  | .file _ => true

/-- `ContainerFileItem::Get` (main.cpp line 42, part_000 line 43):
`if(idx<0 || idx>=(int)m_contents.size()) throw NonExist{};
return m_contents[idx];`. -/
def ContainerGet (m_contents : List FileItem) (idx : Int) : Except Err FileItem :=
  if h : idx < 0 ∨ (m_contents.length : Int) ≤ idx then
    .error .nonExist
  else
    .ok (m_contents.get ⟨idx.toNat, by omega⟩)

/-- `FileItem::operator[](int)` (main.cpp lines 132-140) together with the
per-case `Get` overloads (main.cpp lines 116-123): container cases delegate
to `ContainerFileItem::Get`, the `File` case throws `NonExist`. -/
def FileItem.Get : FileItem → Int → Except Err FileItem
  | .drive _ cs, idx => ContainerGet cs idx
  | .directory _ cs, idx => ContainerGet cs idx
  | .file _, _ => .error .nonExist

/-- `FileItem::operator[](const Path&)` (main.cpp lines 141-151): walk the
path left to right applying `operator[](int)`; an exception thrown at any
step propagates to the caller. -/
def FileItem.GetPath (item : FileItem) (path : Path) : Except Err FileItem :=
  match path with
  | [] => .ok item
  | i :: rest =>
    match item.Get i with
    | .ok next => next.GetPath rest
    | .error e => .error e

/-- `GetName`: `Drive::GetName` returns `string_view{&m_drive_letter, 1}`,
the letter as a one-character name (main.cpp line 55); `Directory` and
`File` return the `NamedFileItem` stored name (part_000 line 22). -/
def FileItem.GetName : FileItem → String
  | .drive m_drive_letter _ => String.mk [m_drive_letter]
  | .directory m_name _ => m_name
  | .file m_name => m_name

/-- `FileItem::Rename` (part_000 lines 113-136): when the active case
derives `NamedFileItem` it calls `SetName(new_name)` (part_000 line 23,
overwriting `m_name`), else it throws `CannotRename`.  The functional model
returns the node after the mutation. -/
def FileItem.Rename : FileItem → String → Except Err FileItem
  | .drive _ _, _ => .error .cannotRename
  | .directory _ cs, new_name => .ok (.directory new_name cs)
  | .file _, new_name => .ok (.file new_name)

mutual

/-- `FileItem::Recurse(Fn&&, Path) const` (main.cpp lines 78-115): visit the
node itself (`fn(item, path)`), then, when the case derives
`ContainerFileItem`, visit each child `i` with path `path ++ [i]` in
ascending order (`path.push_back(i++)` around the recursive call).  The
model collects the visitor invocations, in call order, as `(node, path)`
pairs. -/
def FileItem.Recurse (item : FileItem) (path : Path) : List (FileItem × Path) :=
  match item with
  | .drive _ cs => (item, path) :: FileItem.RecurseChildren cs path 0
  | .directory _ cs => (item, path) :: FileItem.RecurseChildren cs path 0
  | .file _ => [(item, path)]

/-- The `ContainerFileItem::Visit` loop inside `Recurse` (main.cpp lines
106-115): children in order, the counter `i` starting from the given value
(`0` at the only call site), each child visited with `path ++ [i]`. -/
def FileItem.RecurseChildren (cs : List FileItem) (path : Path) (i : Int) :
    List (FileItem × Path) :=
  match cs with
  | [] => []
  | c :: rest =>
    FileItem.Recurse c (path ++ [i]) ++ FileItem.RecurseChildren rest path (i + 1)

end

mutual

/-- The number of nodes of a subtree (the node itself plus all
descendants): the count claim C1 compares the visitor-invocation count
against. -/
def FileItem.size : FileItem → Nat
  | .drive _ cs => 1 + FileItem.sizeList cs
  | .directory _ cs => 1 + FileItem.sizeList cs
  | .file _ => 1

def FileItem.sizeList : List FileItem → Nat
  | [] => 0
  | c :: rest => FileItem.size c + FileItem.sizeList rest

end

/-- The strict pre-order ordering on visit records: `a` precedes `b` when
`a`'s path is lexicographically below `b`'s — i.e. `a`'s path is a proper
prefix of `b`'s (ancestor before descendant) or at the first differing
position `a`'s child index is smaller (children in ascending order). -/
def VisitLt (a b : FileItem × Path) : Prop :=
  List.Lex (fun x y : Int => x < y) a.2 b.2

/-- `ContainerFileItem::GetNumItems` (part_000 line 261, second revision):
`size_t GetNumItems(int idx) const { return m_contents.size(); }` — the
`idx` parameter is unused in the source and kept here. -/
def ContainerGetNumItems (m_contents : List FileItem) ( _idx : Int) : Nat :=
  m_contents.length

/-- `ContainerFileItem::Remove` (part_000 line 267, second revision):
`m_contents.erase(m_contents.begin()+idx)`.  The source does not bounds
check (out of range is undefined behaviour in C++), so the model is only
appealed to under `0 ≤ idx < size`. -/
def ContainerRemove (m_contents : List FileItem) (idx : Int) : List FileItem :=
  m_contents.eraseIdx idx.toNat

/-! ### The spec's worked scenario (section 8): sanity checks -/

theorem scenario_resolve_ok :
    FileItem.GetPath (.drive 'a' [.directory "Animals" [.file "Aardvark"]]) [0, 0]
      = .ok (.file "Aardvark") := rfl

theorem scenario_resolve_nonexist :
    FileItem.GetPath (.drive 'a' [.directory "Animals" [.file "Aardvark"]]) [0, 1]
      = .error .nonExist := rfl

theorem scenario_recurse_order :
    FileItem.Recurse (.drive 'a' [.directory "Animals" [.file "Aardvark"]]) []
      = [(.drive 'a' [.directory "Animals" [.file "Aardvark"]], []),
         (.directory "Animals" [.file "Aardvark"], [0]),
         (.file "Aardvark", [0, 0])] := rfl

/-! ### Helper lemmas -/

theorem getPath_nil (item : FileItem) : item.GetPath [] = .ok item := rfl

theorem getPath_cons (item : FileItem) (i : Int) (rest : Path) :
    item.GetPath (i :: rest) =
      match item.Get i with
      | .ok next => next.GetPath rest
      | .error e => .error e := rfl

theorem getPath_cons_ok (item : FileItem) (i : Int) (rest : Path) (c : FileItem)
    (h : item.Get i = .ok c) : item.GetPath (i :: rest) = c.GetPath rest := by
  rw [getPath_cons, h]

theorem getPath_cons_err (item : FileItem) (i : Int) (rest : Path) (e : Err)
    (h : item.Get i = .error e) : item.GetPath (i :: rest) = .error e := by
  rw [getPath_cons, h]

theorem containerGet_ok_of_lt (cs : List FileItem) (idx : Int)
    (h0 : 0 ≤ idx) (h : idx.toNat < cs.length) :
    ContainerGet cs idx = .ok (cs.get ⟨idx.toNat, h⟩) := by
  unfold ContainerGet
  rw [dif_neg (by omega)]

theorem containerGet_err_of_oob (cs : List FileItem) (idx : Int)
    (h : idx < 0 ∨ (cs.length : Int) ≤ idx) :
    ContainerGet cs idx = .error .nonExist := by
  unfold ContainerGet
  rw [dif_pos h]

theorem containerGet_ok_iff (cs : List FileItem) (idx : Int) :
    (∃ c, ContainerGet cs idx = .ok c) ↔ 0 ≤ idx ∧ idx < (cs.length : Int) := by
  constructor
  · rintro ⟨c, hc⟩
    by_contra hmem
    rw [containerGet_err_of_oob cs idx (by omega)] at hc
    exact Except.noConfusion hc
  · rintro ⟨h0, h1⟩
    exact ⟨_, containerGet_ok_of_lt cs idx h0 (by omega)⟩

/-- `FileItem::Get` on a container case is `ContainerFileItem::Get` on its
contents. -/
theorem fileItem_get_container (item : FileItem) (idx : Int)
    (hc : item.isContainer = true) :
    item.Get idx = ContainerGet item.m_contents idx := by
  cases item with
  | drive l cs => rfl
  | directory n cs => rfl
  | file n => exact absurd hc (by simp [FileItem.isContainer])

/-- Every failure `GetPath` can report is `NonExist`: the only exception the
access path throws. -/
theorem getPath_error_nonExist (item : FileItem) (p : Path) (e : Err)
    (h : item.GetPath p = .error e) : e = .nonExist := by
  induction p generalizing item with
  | nil => exact Except.noConfusion h
  | cons i rest ih =>
    rw [FileItem.GetPath] at h
    cases hg : item.Get i with
    | ok c => rw [hg] at h; exact ih c h
    | error e2 =>
      rw [hg] at h
      cases item with
      | drive l cs =>
        rw [FileItem.Get] at hg
        unfold ContainerGet at hg
        split at hg
        · cases hg; cases h; rfl
        · exact Except.noConfusion hg
      | directory n cs =>
        rw [FileItem.Get] at hg
        unfold ContainerGet at hg
        split at hg
        · cases hg; cases h; rfl
        · exact Except.noConfusion hg
      | file n => cases hg; cases h; rfl

/-- Splitting a path: the walk over `p ++ q` is the walk over `p` continued,
when it succeeded, by the walk over `q` (the loop of
`FileItem::operator[](const Path&)` processes indices left to right). -/
theorem getPath_append (item : FileItem) (p q : Path) :
    item.GetPath (p ++ q) =
      match item.GetPath p with
      | .ok c => c.GetPath q
      | .error e => .error e := by
  induction p generalizing item with
  | nil => rfl
  | cons i rest ih =>
    show item.GetPath (i :: (rest ++ q)) = _
    rw [FileItem.GetPath, FileItem.GetPath]
    cases hg : item.Get i with
    | ok c => exact ih c
    | error e => rfl

/-! ### Claims C2 - C9 -/

/-- C2: for a container node (Drive or Directory) and integer index `i`,
indexed child access succeeds, returning the i-th child, iff
`0 ≤ i < child_count`; otherwise — negative indices included, treated the
same as too-large ones — it fails with `NonExist`. -/
theorem C2_container_indexed_access (item : FileItem) (idx : Int)
    (hc : item.isContainer = true) :
    ((∃ c, item.Get idx = .ok c) ↔ 0 ≤ idx ∧ idx < (item.m_contents.length : Int))
    ∧ (∀ h : idx.toNat < item.m_contents.length, 0 ≤ idx →
        item.Get idx = .ok (item.m_contents.get ⟨idx.toNat, h⟩))
    ∧ (idx < 0 ∨ (item.m_contents.length : Int) ≤ idx →
        item.Get idx = .error .nonExist) := by
  rw [show ∀ i, item.Get i = ContainerGet item.m_contents i from
    fun i => fileItem_get_container item i hc]
  exact ⟨containerGet_ok_iff _ idx,
    fun h h0 => containerGet_ok_of_lt _ idx h0 h,
    containerGet_err_of_oob _ idx⟩

theorem C2_container_indexed_access_witness :
    (∃ c, (FileItem.drive 'a' [.file "x"]).Get 0 = .ok c) ↔
      0 ≤ (0 : Int) ∧ (0 : Int) < (((FileItem.drive 'a' [.file "x"]).m_contents).length : Int) :=
  (C2_container_indexed_access (.drive 'a' [.file "x"]) 0 rfl).1

/-- C3: indexed child access on a `File` node fails with `NonExist` for
every index, and resolving a path through a `File` at a non-final element
fails with `NonExist` at that step. -/
theorem C3_file_access_nonexist (m_name : String) (idx : Int) (rest : Path) :
    (FileItem.file m_name).Get idx = .error .nonExist
    ∧ (FileItem.file m_name).GetPath (idx :: rest) = .error .nonExist :=
  ⟨rfl, rfl⟩

/-- C4: on a non-empty path `i :: rest`, `GetPath` takes one `Get` step and
continues with `rest` when it succeeds, and returns the step's error
unchanged when it fails (short-circuit); consequently once a prefix of a
path fails with `NonExist`, the whole path fails with `NonExist`. -/
theorem C4_resolve_step_law (item : FileItem) (i : Int) (rest : Path) :
    (item.GetPath (i :: rest) =
      match item.Get i with
      | .ok c => c.GetPath rest
      | .error e => .error e)
    ∧ (∀ c, item.Get i = .ok c → item.GetPath (i :: rest) = c.GetPath rest)
    ∧ (∀ e, item.Get i = .error e → item.GetPath (i :: rest) = .error e)
    ∧ (∀ tail, item.GetPath (i :: rest) = .error .nonExist →
        item.GetPath ((i :: rest) ++ tail) = .error .nonExist) := by
  refine ⟨rfl, fun c hc => ?_, fun e he => ?_, fun tail hfail => ?_⟩
  · rw [FileItem.GetPath, hc]
  · rw [FileItem.GetPath, he]
  · rw [getPath_append, hfail]

/-- C5: the empty path resolves to the node itself (identity law; the loop
of `operator[](const Path&)` never runs). -/
theorem C5_resolve_empty_identity (item : FileItem) :
    item.GetPath [] = .ok item := rfl

/-- C6: renaming a named node (Directory or File) succeeds; afterwards
`GetName` yields the new name while the node's kind and children are
unchanged. -/
theorem C6_rename_named (item : FileItem) (n2 : String)
    (h : item.isNamed = true) :
    ∃ item2, item.Rename n2 = .ok item2
      ∧ item2.GetName = n2
      ∧ item2.kind = item.kind
      ∧ item2.m_contents = item.m_contents := by
  cases item with
  | drive l cs => exact absurd h (by simp [FileItem.isNamed])
  | directory n cs => exact ⟨.directory n2 cs, rfl, rfl, rfl, rfl⟩
  | file n => exact ⟨.file n2, rfl, rfl, rfl, rfl⟩

theorem C6_rename_named_witness :
    ∃ item2, (FileItem.file "Aardvark").Rename "Antalope" = .ok item2
      ∧ item2.GetName = "Antalope"
      ∧ item2.kind = (FileItem.file "Aardvark").kind
      ∧ item2.m_contents = (FileItem.file "Aardvark").m_contents :=
  C6_rename_named (.file "Aardvark") "Antalope" rfl

/-- C7: renaming a Root (Drive) node fails with `CannotRename`; the node —
its single-character identifier and its children — is untouched (in the
functional model the failing call produces no new node, so the drive still
carries its letter and contents). -/
theorem C7_rename_drive_fails (l : Char) (cs : List FileItem) (n : String) :
    (FileItem.drive l cs).Rename n = .error .cannotRename
    ∧ (FileItem.drive l cs).GetName = String.mk [l]
    ∧ (FileItem.drive l cs).m_contents = cs :=
  ⟨rfl, rfl, rfl⟩

/-- C8: `GetName` returns the drive letter as a one-character name for a
Root (Drive) and exactly the stored name for a Directory or File. -/
theorem C8_getname (l : Char) (cs : List FileItem) (n : String) :
    (FileItem.drive l cs).GetName = String.mk [l]
    ∧ ((FileItem.drive l cs).GetName).length = 1
    ∧ (FileItem.directory n cs).GetName = n
    ∧ (FileItem.file n).GetName = n :=
  ⟨rfl, rfl, rfl, rfl⟩

/-- C9: for Root (Drive) and Directory nodes, `GetNumItems` returns exactly
the number of children held (for any value of its unused index
parameter). -/
theorem C9_getnumitems (l : Char) (n : String) (cs : List FileItem) (idx : Int) :
    ContainerGetNumItems (FileItem.drive l cs).m_contents idx
        = (FileItem.drive l cs).m_contents.length
    ∧ ContainerGetNumItems (FileItem.directory n cs).m_contents idx
        = (FileItem.directory n cs).m_contents.length :=
  ⟨rfl, rfl⟩

/-- C10: removing the child at a valid index `i` from a container deletes
exactly that child: the count drops by one, children before `i` keep their
index, children after `i` shift down by one. -/
theorem C10_remove_shifts (cs : List FileItem) (idx : Int)
    (h0 : 0 ≤ idx) (h1 : idx < (cs.length : Int)) :
    (ContainerRemove cs idx).length = cs.length - 1
    ∧ (∀ j : Nat, (j : Int) < idx → (ContainerRemove cs idx)[j]? = cs[j]?)
    ∧ (∀ j : Nat, idx < (j : Int) → j < cs.length →
        (ContainerRemove cs idx)[j - 1]? = cs[j]?) := by
  have hn : idx.toNat < cs.length := by omega
  simp only [ContainerRemove]
  have hlen : (cs.eraseIdx idx.toNat).length = cs.length - 1 :=
    List.length_eraseIdx_of_lt hn
  refine ⟨hlen, fun j hj => ?_, fun j hj1 hj2 => ?_⟩
  · have hj' : j < idx.toNat := by omega
    have hb : j < (cs.eraseIdx idx.toNat).length := by omega
    rw [List.getElem?_eq_getElem hb, List.getElem?_eq_getElem (by omega : j < cs.length)]
    exact congrArg some (List.getElem_eraseIdx_of_lt cs idx.toNat j hb hj')
  · have hj' : idx.toNat ≤ j - 1 := by omega
    have hb : j - 1 < (cs.eraseIdx idx.toNat).length := by omega
    rw [List.getElem?_eq_getElem hb, List.getElem?_eq_getElem hj2]
    have := List.getElem_eraseIdx_of_ge cs idx.toNat (j - 1) hb hj'
    rw [this]
    simp only [show j - 1 + 1 = j from by omega]

theorem C10_remove_shifts_witness :
    ((ContainerRemove [FileItem.file "a", .file "b", .file "c"] 1).length
        = [FileItem.file "a", .file "b", .file "c"].length - 1)
    ∧ (∀ j : Nat, (j : Int) < 1 →
        (ContainerRemove [FileItem.file "a", .file "b", .file "c"] 1)[j]?
          = [FileItem.file "a", .file "b", .file "c"][j]?)
    ∧ (∀ j : Nat, 1 < (j : Int) → j < [FileItem.file "a", .file "b", .file "c"].length →
        (ContainerRemove [FileItem.file "a", .file "b", .file "c"] 1)[j - 1]?
          = [FileItem.file "a", .file "b", .file "c"][j]?) :=
  C10_remove_shifts [FileItem.file "a", .file "b", .file "c"] 1 (by decide) (by decide)

/-! ### Infrastructure for the traversal claim C1 -/

/-- Induction over the nested tree: to prove `P` of every node, prove it of
each case given it for all children. -/
theorem FileItem.inductionOn {P : FileItem → Prop}
    (hdrive : ∀ l cs, (∀ x ∈ cs, P x) → P (.drive l cs))
    (hdir : ∀ n cs, (∀ x ∈ cs, P x) → P (.directory n cs))
    (hfile : ∀ n, P (.file n)) :
    ∀ item, P item := fun item =>
  match item with
  | .drive l cs =>
      hdrive l cs (fun x _hx => FileItem.inductionOn hdrive hdir hfile x)
  | .directory n cs =>
      hdir n cs (fun x _hx => FileItem.inductionOn hdrive hdir hfile x)
  | .file n => hfile n
termination_by item => sizeOf item
decreasing_by
  · have := List.sizeOf_lt_of_mem _hx; simp; omega
  · have := List.sizeOf_lt_of_mem _hx; simp; omega

theorem recurseChildren_nil (path : Path) (i : Int) :
    FileItem.RecurseChildren [] path i = [] := rfl

theorem recurseChildren_cons (c : FileItem) (rest : List FileItem)
    (path : Path) (i : Int) :
    FileItem.RecurseChildren (c :: rest) path i
      = c.Recurse (path ++ [i]) ++ FileItem.RecurseChildren rest path (i + 1) := rfl

/-- Every case's traversal starts with the node itself followed by the
children block (empty for `File`). -/
theorem recurse_eq_cons (item : FileItem) (path : Path) :
    item.Recurse path
      = (item, path) :: FileItem.RecurseChildren item.m_contents path 0 := by
  cases item <;> rfl

theorem recurse_head (item : FileItem) (path : Path) :
    (item.Recurse path).head? = some (item, path) := by
  rw [recurse_eq_cons]; rfl

/-- Inversion for a successful bounds-checked access. -/
theorem containerGet_ok_inv (cs : List FileItem) (idx : Int) (c : FileItem)
    (h : ContainerGet cs idx = .ok c) :
    0 ≤ idx ∧ ∃ hj : idx.toNat < cs.length, c = cs.get ⟨idx.toNat, hj⟩ := by
  unfold ContainerGet at h
  split at h
  · exact Except.noConfusion h
  · next hcond =>
    injection h with h
    exact ⟨by omega, by omega, h.symm⟩

/-- Membership in the children block: a visit of some child `j`'s subtree,
launched with path `path ++ [i + j]`. -/
theorem mem_recurseChildren_iff (cs : List FileItem) (path : Path) (i : Int)
    (v : FileItem × Path) :
    v ∈ FileItem.RecurseChildren cs path i ↔
      ∃ j : Nat, ∃ hj : j < cs.length,
        v ∈ FileItem.Recurse (cs.get ⟨j, hj⟩) (path ++ [i + (j : Int)]) := by
  induction cs generalizing i with
  | nil => simp [recurseChildren_nil]
  | cons c rest ih =>
    rw [recurseChildren_cons, List.mem_append, ih (i + 1)]
    constructor
    · rintro (hv | ⟨j, hj, hv⟩)
      · exact ⟨0, by simp, by simpa using hv⟩
      · refine ⟨j + 1, by simpa using Nat.succ_lt_succ hj, ?_⟩
        have harith : i + ((j : Int) + 1) = i + 1 + (j : Int) := by ring
        simpa [harith] using hv
    · rintro ⟨j, hj, hv⟩
      cases j with
      | zero => exact Or.inl (by simpa using hv)
      | succ j' =>
        refine Or.inr ⟨j', by simp only [List.length_cons] at hj; omega, ?_⟩
        have harith : i + ((j' : Int) + 1) = i + 1 + (j' : Int) := by ring
        simpa [harith] using hv

/-- Soundness of traversal for a container case, the inductive step shared
by Drive and Directory: every visit resolves, via `GetPath`, to the visited
node, along the recorded path relative to the starting prefix. -/
theorem recurse_sound_container (item : FileItem) (cs : List FileItem)
    (hcs : item.m_contents = cs)
    (hget : ∀ idx, item.Get idx = ContainerGet cs idx)
    (ih : ∀ x ∈ cs, ∀ (start : Path), ∀ v ∈ x.Recurse start,
        ∃ q, v.2 = start ++ q ∧ x.GetPath q = .ok v.1) :
    ∀ (start : Path), ∀ v ∈ item.Recurse start,
      ∃ q, v.2 = start ++ q ∧ item.GetPath q = .ok v.1 := by
  intro start v hv
  rw [recurse_eq_cons, hcs] at hv
  rcases List.mem_cons.1 hv with hv | hv
  · subst hv
    exact ⟨[], by simp, rfl⟩
  · obtain ⟨j, hj, hvj⟩ := (mem_recurseChildren_iff cs start 0 v).1 hv
    rw [zero_add] at hvj
    obtain ⟨q, hq, hres⟩ :=
      ih (cs.get ⟨j, hj⟩) (List.get_mem cs j hj) (start ++ [(j : Int)]) v hvj
    refine ⟨(j : Int) :: q, ?_, ?_⟩
    · rw [hq, List.append_assoc, List.singleton_append]
    · rw [getPath_cons_ok item (j : Int) q (cs.get ⟨j, hj⟩) ?succ]
      · exact hres
      case succ =>
        rw [hget]
        rw [containerGet_ok_of_lt cs (j : Int) (Int.natCast_nonneg j)
          (by simpa using hj)]
        simp [Int.toNat_natCast]

theorem recurse_sound : ∀ (item : FileItem) (start : Path), ∀ v ∈ item.Recurse start,
    ∃ q, v.2 = start ++ q ∧ item.GetPath q = .ok v.1 := by
  intro item
  induction item using FileItem.inductionOn with
  | hdrive l cs ih => exact recurse_sound_container _ cs rfl (fun _ => rfl) ih
  | hdir n cs ih => exact recurse_sound_container _ cs rfl (fun _ => rfl) ih
  | hfile n =>
    intro start v hv
    rw [recurse_eq_cons] at hv
    simp only [FileItem.m_contents, recurseChildren_nil, List.mem_singleton] at hv
    subst hv
    exact ⟨[], by simp, rfl⟩

/-- Every visit has the starting prefix at the front of its path. -/
theorem recurse_shape (item : FileItem) (start : Path) (v : FileItem × Path)
    (hv : v ∈ item.Recurse start) : ∃ q, v.2 = start ++ q := by
  obtain ⟨q, hq, -⟩ := recurse_sound item start v hv
  exact ⟨q, hq⟩

/-- Completeness of traversal for a container case: every node `GetPath`
can reach is visited, at the reached path. -/
theorem recurse_complete_container (item : FileItem) (cs : List FileItem)
    (hcs : item.m_contents = cs)
    (hget : ∀ idx, item.Get idx = ContainerGet cs idx)
    (ih : ∀ x ∈ cs, ∀ (start p : Path) (n : FileItem),
        x.GetPath p = .ok n → (n, start ++ p) ∈ x.Recurse start) :
    ∀ (start p : Path) (n : FileItem),
      item.GetPath p = .ok n → (n, start ++ p) ∈ item.Recurse start := by
  intro start p n h
  rw [recurse_eq_cons, hcs]
  cases p with
  | nil =>
    rw [getPath_nil] at h
    injection h with h
    subst h
    simp
  | cons i rest =>
    rw [getPath_cons] at h
    cases hg : item.Get i with
    | error e => rw [hg] at h; exact Except.noConfusion h
    | ok c =>
      rw [hg] at h
      have hg2 := hg
      rw [hget] at hg2
      obtain ⟨h0, hj, hc⟩ := containerGet_ok_inv cs i c hg2
      subst hc
      have hmem := ih _ (List.get_mem cs i.toNat hj) (start ++ [i]) rest n h
      apply List.mem_cons_of_mem
      rw [mem_recurseChildren_iff]
      refine ⟨i.toNat, hj, ?_⟩
      rw [show (0 : Int) + (i.toNat : Int) = i from by omega]
      simpa [List.append_assoc] using hmem

theorem recurse_complete : ∀ (item : FileItem) (start p : Path) (n : FileItem),
    item.GetPath p = .ok n → (n, start ++ p) ∈ item.Recurse start := by
  intro item
  induction item using FileItem.inductionOn with
  | hdrive l cs ih => exact recurse_complete_container _ cs rfl (fun _ => rfl) ih
  | hdir n cs ih => exact recurse_complete_container _ cs rfl (fun _ => rfl) ih
  | hfile nm =>
    intro start p n h
    cases p with
    | nil =>
      rw [getPath_nil] at h
      injection h with h
      subst h
      simp [recurse_eq_cons, FileItem.m_contents, recurseChildren_nil]
    | cons i rest =>
      rw [getPath_cons_err (.file nm) i rest .nonExist rfl] at h
      exact Except.noConfusion h

/-- The children block of the traversal contributes one visit per node of
each child subtree. -/
theorem recurseChildren_length (cs : List FileItem)
    (ih : ∀ x ∈ cs, ∀ start : Path, (x.Recurse start).length = x.size) :
    ∀ (path : Path) (i : Int),
      (FileItem.RecurseChildren cs path i).length = FileItem.sizeList cs := by
  induction cs with
  | nil => intro path i; rfl
  | cons c rest ihl =>
    intro path i
    rw [recurseChildren_cons, List.length_append, ih c (by simp) _,
        ihl (fun x hx => ih x (by simp [hx])) path (i + 1)]
    rfl

/-- The traversal makes exactly one visitor invocation per node of the
subtree. -/
theorem recurse_length : ∀ (item : FileItem) (start : Path),
    (item.Recurse start).length = item.size := by
  intro item
  induction item using FileItem.inductionOn with
  | hdrive l cs ih =>
    intro start
    rw [recurse_eq_cons, List.length_cons]
    rw [show (FileItem.drive l cs).m_contents = cs from rfl]
    rw [recurseChildren_length cs ih]
    rw [show (FileItem.drive l cs).size = 1 + FileItem.sizeList cs from rfl]
    omega
  | hdir n cs ih =>
    intro start
    rw [recurse_eq_cons, List.length_cons]
    rw [show (FileItem.directory n cs).m_contents = cs from rfl]
    rw [recurseChildren_length cs ih]
    rw [show (FileItem.directory n cs).size = 1 + FileItem.sizeList cs from rfl]
    omega
  | hfile n => intro start; rfl

/-- A list is lexicographically below any of its proper extensions. -/
theorem lex_extend : ∀ (s : Path) (x : Int) (t : Path),
    List.Lex (fun a b : Int => a < b) s (s ++ x :: t)
  | [], _, _ => List.Lex.nil
  | _ :: s', x, t => List.Lex.cons (lex_extend s' x t)

/-- Prepending a common prefix preserves the lexicographic order. -/
theorem lex_append_left : ∀ (s : Path) {u v : Path},
    List.Lex (fun a b : Int => a < b) u v →
    List.Lex (fun a b : Int => a < b) (s ++ u) (s ++ v)
  | [], _, _, h => h
  | _ :: s', _, _, h => List.Lex.cons (lex_append_left s' h)

theorem lex_irrefl : ∀ s : Path, ¬ List.Lex (fun a b : Int => a < b) s s
  | _ :: s', h => by
    cases h with
    | cons h => exact lex_irrefl s' h
    | rel h => exact absurd h (lt_irrefl _)

/-- Visits inside the children block are strictly ordered: within one child
subtree by the induction hypothesis, across children by ascending index. -/
theorem pairwise_recurseChildren (cs : List FileItem)
    (ihp : ∀ x ∈ cs, ∀ start : Path, (x.Recurse start).Pairwise VisitLt) :
    ∀ (path : Path) (i : Int),
      (FileItem.RecurseChildren cs path i).Pairwise VisitLt := by
  induction cs with
  | nil => intro path i; simp [recurseChildren_nil]
  | cons c rest ihl =>
    intro path i
    rw [recurseChildren_cons, List.pairwise_append]
    refine ⟨ihp c (by simp) _, ihl (fun x hx => ihp x (by simp [hx])) path (i + 1), ?_⟩
    intro a ha b hb
    obtain ⟨qa, hqa⟩ := recurse_shape c (path ++ [i]) a ha
    obtain ⟨j, hj, hbmem⟩ := (mem_recurseChildren_iff rest path (i + 1) b).1 hb
    obtain ⟨qb, hqb⟩ := recurse_shape _ _ b hbmem
    show List.Lex (fun x y : Int => x < y) a.2 b.2
    rw [hqa, hqb, List.append_assoc, List.append_assoc,
        List.singleton_append, List.singleton_append]
    exact lex_append_left path (List.Lex.rel (by omega))

theorem recurse_pairwise : ∀ (item : FileItem) (start : Path),
    (item.Recurse start).Pairwise VisitLt := by
  intro item
  induction item using FileItem.inductionOn with
  | hdrive l cs ih =>
    intro start
    rw [recurse_eq_cons, List.pairwise_cons]
    refine ⟨?_, pairwise_recurseChildren cs ih start 0⟩
    intro b hb
    obtain ⟨j, hj, hbmem⟩ :=
      (mem_recurseChildren_iff ((FileItem.drive l cs).m_contents) start 0 b).1 hb
    obtain ⟨qb, hqb⟩ := recurse_shape _ _ b hbmem
    show List.Lex (fun x y : Int => x < y) start b.2
    rw [hqb, List.append_assoc, List.singleton_append]
    exact lex_extend start _ _
  | hdir n cs ih =>
    intro start
    rw [recurse_eq_cons, List.pairwise_cons]
    refine ⟨?_, pairwise_recurseChildren cs ih start 0⟩
    intro b hb
    obtain ⟨j, hj, hbmem⟩ :=
      (mem_recurseChildren_iff ((FileItem.directory n cs).m_contents) start 0 b).1 hb
    obtain ⟨qb, hqb⟩ := recurse_shape _ _ b hbmem
    show List.Lex (fun x y : Int => x < y) start b.2
    rw [hqb, List.append_assoc, List.singleton_append]
    exact lex_extend start _ _
  | hfile n =>
    intro start
    rw [recurse_eq_cons]
    simp [FileItem.m_contents, recurseChildren_nil]

/-- No path is recorded twice: each node of the subtree is visited exactly
once. -/
theorem recurse_paths_nodup (item : FileItem) (start : Path) :
    ((item.Recurse start).map (fun v => v.2)).Nodup := by
  refine (recurse_pairwise item start).map _ ?_
  intro a b h heq
  have h2 : List.Lex (fun x y : Int => x < y) a.2 b.2 := h
  rw [heq] at h2
  exact lex_irrefl _ h2

/-- C1: starting `Recurse` on any node visits exactly the nodes of its
subtree, once each, in pre-order depth-first order (a node before its
descendants, children by ascending index, each child subtree fully before
the next sibling), passing the visitor the path of child indices from the
starting node (empty for the starting node itself); a subtree with k nodes
gets exactly k invocations.  Formally: the visit list has length `size`
(one invocation per node), starts with `(item, [])`, each visit `(n, p)`
satisfies `GetPath p = ok n` (the path reaches the node), every reachable
`(n, p)` occurs, the recorded paths are pairwise distinct (each node
exactly once), and the list is strictly increasing in the pre-order
lexicographic path order `VisitLt`. -/
theorem C1_recurse_preorder (item : FileItem) :
    (item.Recurse []).length = item.size
    ∧ (item.Recurse []).head? = some (item, ([] : Path))
    ∧ (∀ v ∈ item.Recurse [], item.GetPath v.2 = .ok v.1)
    ∧ (∀ (p : Path) (n : FileItem), item.GetPath p = .ok n → (n, p) ∈ item.Recurse [])
    ∧ ((item.Recurse []).map (fun v => v.2)).Nodup
    ∧ (item.Recurse []).Pairwise VisitLt := by
  refine ⟨recurse_length item [], recurse_head item [], ?_, ?_,
    recurse_paths_nodup item [], recurse_pairwise item []⟩
  · intro v hv
    obtain ⟨q, hq, hres⟩ := recurse_sound item [] v hv
    rw [hq, List.nil_append]
    exact hres
  · intro p n h
    simpa using recurse_complete item [] p n h

end FileExample
